import Mathlib

/-!
Verification of the example-files repository.

The repository contains standalone example files in TypeScript, JavaScript,
Ruby and Go.  The concrete algorithmic functions (fibonacci, factorial,
divide) are embedded here directly from their sources, with each language's
number type modelled at its machine semantics: TypeScript/JavaScript
`number` is IEEE-754 binary64, so every arithmetic result is rounded to the
nearest value with a 53-bit significand (ties to even); Go `int` is 64-bit
two's complement, so addition wraps modulo `2^64`; Ruby integers are exact
bignums.  The division helpers operate on values that are compared with
zero and divided once, so they are embedded over `Rat` (the branch
structure is unaffected by rounding).  The worker-pool primitive described
by the specification is embedded as a small-step transition system
generalising the Go worker-pool fragment (`worker` + the pool section of
`main`); operations that exist only in the specification (config
validation, `ClosedQueue` submits, Ordered mode, cancellation) are
modelled from the spec and marked as such.
-/

namespace ExampleFiles

/-- Mathematical Fibonacci numbers: 0, 1, 1, 2, 3, 5, ... -/
def fib : Nat → Int
  | 0 => 0
  | 1 => 1
  | k + 2 => fib k + fib (k + 1)

/-- The list of the first `n` Fibonacci numbers. -/
def fibList (n : Nat) : List Int :=
  (List.range n).map fib

/-- Linear-time Fibonacci pair `(fib k, fib (k+1))`, used to evaluate
bounds and concrete sequences without the exponential naive recursion. -/
def fibP : Nat → Int × Int
  | 0 => (0, 1)
  | k + 1 => ((fibP k).2, (fibP k).1 + (fibP k).2)

/-- Kernel-evaluable form of `fibList`. -/
def fibIter : Nat → List Int
  | 0 => []
  | n + 1 => fibIter n ++ [(fibP n).1]

/-! ### IEEE-754 binary64 arithmetic on integral values

JavaScript/TypeScript `number` is IEEE-754 binary64.  All values arising in
the embedded programs are (possibly rounded) nonnegative integers far below
the binary64 overflow threshold `2^1024`, so an arithmetic operation on
them is: compute the exact integer result, then round it to the nearest
integer expressible with a 53-bit significand, ties to the even
significand.  `f64Exp` computes how many low bits exceed the 53-bit
significand (its fuel of 1100 halvings covers every value below `2^1153`,
far above anything reachable here). -/

/-- Number of halvings needed to bring `v` under `2^53`
(i.e. `max 0 (bits v - 53)`), by fuel-bounded recursion. -/
def f64Exp : Nat → Nat → Nat
  | 0, _ => 0
  | fuel + 1, v => if v < 2 ^ 53 then 0 else f64Exp fuel (v / 2) + 1

/-- Round a nonnegative integer to the nearest binary64 value (53-bit
significand, ties to even).  Values below `2^53` are exactly
representable. -/
def roundPos (v : Nat) : Nat :=
  if v < 2 ^ 53 then v
  else
    let e := f64Exp 1100 v
    let q := v / 2 ^ e
    let r := v % 2 ^ e
    if 2 * r > 2 ^ e ∨ (2 * r = 2 ^ e ∧ q % 2 = 1) then (q + 1) * 2 ^ e else q * 2 ^ e

/-- Round an integer to the nearest binary64 value (rounding is
sign-symmetric). -/
def roundF64 (x : Int) : Int :=
  if x < 0 then -(roundPos x.natAbs : Int) else (roundPos x.natAbs : Int)

/-- binary64 addition of two (representable, integral) values: the exact
sum rounded to nearest. -/
def addF64 (a b : Int) : Int :=
  roundF64 (a + b)

/-- binary64 multiplication of two (representable, integral) values: the
exact product rounded to nearest. -/
def mulF64 (a b : Int) : Int :=
  roundF64 (a * b)

/-- Go `int` is 64-bit two's complement: addition wraps into
`[-2^63, 2^63)` modulo `2^64`. -/
def wrap64 (x : Int) : Int :=
  (x + 2 ^ 63) % 2 ^ 64 - 2 ^ 63

/-- Loop shared by the TypeScript / JavaScript fibonacci sources:
`while (sequence.length < n) sequence.push(seq[len-1] + seq[len-2])`, with
the push value computed in binary64.  The fuel counts the remaining
iterations (`n - length`), so the recursion mirrors the `while` guard. -/
def fibExtendF64 : Nat → List Int → List Int
  | 0, seq => seq
  | fuel + 1, seq =>
      fibExtendF64 fuel
        (seq ++ [addF64 (seq.getD (seq.length - 1) 0) (seq.getD (seq.length - 2) 0)])

/-- Loop of the Ruby `MathUtils.fibonacci` source:
`sequence << sequence[-1] + sequence[-2] while sequence.length < n`, in
Ruby's exact bignum arithmetic. -/
def fibExtend (n : Nat) (seq : List Int) : List Int :=
  if seq.length < n then
    fibExtend n (seq ++ [seq.getD (seq.length - 1) 0 + seq.getD (seq.length - 2) 0])
  else
    seq
termination_by n - seq.length
decreasing_by
  simp only [List.length_append, List.length_cons, List.length_nil]
  omega

namespace TS

/-- Embeds `fibonacci` from the TypeScript example (src/example.ts and
src/unnamed/part_000 lines 44-53): `n <= 0` gives `[]`, `n === 1` gives
`[0]`, otherwise start from `[0, 1]` and push the binary64 sum of the last
two elements while the length is below `n` (the loop runs `n - 2`
times). -/
def fibonacci (n : Int) : List Int :=
  if n ≤ 0 then []
  else if n = 1 then [0]
  else fibExtendF64 (n.toNat - 2) [0, 1]

end TS

namespace JS

/-- Embeds `fibonacci` from the JavaScript example (src/unnamed/part_002
lines 33-42); identical algorithm and binary64 arithmetic as the
TypeScript one. -/
def fibonacci (n : Int) : List Int :=
  if n ≤ 0 then []
  else if n = 1 then [0]
  else fibExtendF64 (n.toNat - 2) [0, 1]

/-- Recursion of the JavaScript `factorial` for arguments `≥ 1`, with the
multiplication `n * factorial(n - 1)` performed in binary64. -/
def factF64 : Nat → Int
  | 0 => 1
  | 1 => 1
  | k + 2 => mulF64 ((k : Int) + 2) (factF64 (k + 1))

/-- Embeds the recursive `factorial` from the JavaScript example
(src/unnamed/part_002 lines 49-52):
`if (n <= 1) return 1; return n * factorial(n - 1)`, with binary64
multiplication. -/
def factorial (n : Int) : Int :=
  if n ≤ 1 then 1 else factF64 n.toNat

end JS

namespace MathUtils

/-- Embeds `MathUtils.fibonacci` from the Ruby example (src/unnamed/part_001
lines 212-219): `sequence << sequence[-1] + sequence[-2] while sequence.length < n`. -/
def fibonacci (n : Int) : List Int :=
  if n ≤ 0 then []
  else if n = 1 then [0]
  else fibExtend n.toNat [0, 1]

/-- Embeds `MathUtils.factorial` from the Ruby example (src/unnamed/part_001
lines 221-225): 1 for `n <= 1`, otherwise `(1..n).reduce(:*)`, the product
of the integers 1 through `n`. -/
def factorial (n : Int) : Int :=
  if n ≤ 1 then 1
  else ((List.range' 1 n.toNat).map Int.ofNat).prod

end MathUtils

namespace Go

/-- Loop of Go `Fibonacci` (src/unnamed/part_001 lines 304-319): fill the
slice forward, `sequence[i] = sequence[i-1] + sequence[i-2]`, where `+` is
Go `int` addition (64-bit two's complement, wraps on overflow).  The fuel
counts the remaining iterations `n - i` of `for i := 2; i < n; i++`. -/
def fibFill : Nat → Nat → List Int → List Int
  | 0, _, seq => seq
  | fuel + 1, i, seq =>
      fibFill fuel (i + 1) (seq ++ [wrap64 (seq.getD (i - 1) 0 + seq.getD (i - 2) 0)])

/-- Embeds Go `Fibonacci` (src/unnamed/part_001 lines 304-319): `n <= 0`
gives `[]`, `n == 1` gives `[0]`, otherwise a length-`n` slice with
`seq[0] = 0`, `seq[1] = 1` and the forward fill loop from index 2 (run
`n - 2` times), in wrapping int64 arithmetic. -/
def Fibonacci (n : Int) : List Int :=
  if n ≤ 0 then []
  else if n = 1 then [0]
  else fibFill (n.toNat - 2) 2 [0, 1]

/-- Embeds Go `divide` (src/unnamed/part_001 lines 412-417): returns
`(0, error "division by zero")` when `b == 0`, else `(a / b, nil)`.
Go float64 values are idealised as rationals. -/
def divide (a b : Rat) : Rat × Option String :=
  if b = 0 then (0, some "division by zero") else (a / b, none)

/-- The sentinel error `ErrDivisionByZero` of the second Go example
(src/unnamed/part_001 line 484). -/
inductive GoError where
  | divisionByZero
  deriving DecidableEq, Repr

/-- Embeds Go `SafeDivide` (src/unnamed/part_001 lines 486-491): returns
`(0, ErrDivisionByZero)` when `b == 0`, else `(a / b, nil)`. -/
def SafeDivide (a b : Rat) : Rat × Option GoError :=
  if b = 0 then (0, some .divisionByZero) else (a / b, none)

end Go

/-- The TypeScript `Result<T>` union type (src/unnamed/part_000 line 56):
either `{success: true, data}` or `{success: false, error}`; the failure
alternative has no `data` field. -/
inductive TSResult where
  | success (data : Rat)
  | failure (error : String)
  deriving DecidableEq, Repr

/-- Whether a `TSResult` is the failure alternative. -/
def TSResult.isFailure : TSResult → Bool
  | .failure _ => true
  | .success _ => false

namespace TS

/-- Embeds TypeScript `divide` (src/unnamed/part_000 lines 58-63): failure
"Division by zero" when `b === 0`, else success `a / b`.  TypeScript numbers
are idealised as rationals. -/
def divide (a b : Rat) : TSResult :=
  if b = 0 then .failure "Division by zero" else .success (a / b)

end TS

/-! ### Lemmas about the fibonacci embeddings -/

lemma fibList_length (k : Nat) : (fibList k).length = k := by
  simp [fibList]

lemma fibList_succ (k : Nat) : fibList (k + 1) = fibList k ++ [fib k] := by
  simp [fibList, List.range_succ]

lemma fibList_getD (k i : Nat) (h : i < k) : (fibList k).getD i 0 = fib i := by
  have hl : i < (fibList k).length := by simpa [fibList_length]
  rw [List.getD_eq_getElem _ _ hl]
  simp [fibList, h]

lemma fib_eq_of_two_le (k : Nat) (h : 2 ≤ k) : fib k = fib (k - 1) + fib (k - 2) := by
  obtain ⟨j, rfl⟩ : ∃ j, k = j + 2 := ⟨k - 2, by omega⟩
  show fib j + fib (j + 1) = _
  have h1 : j + 2 - 1 = j + 1 := by omega
  have h2 : j + 2 - 2 = j := by omega
  rw [h1, h2, Int.add_comm]

lemma fibExtend_fibList (n : Nat) :
    ∀ m k, 2 ≤ k → n - k ≤ m → fibExtend n (fibList k) = fibList (max k n) := by
  intro m
  induction m with
  | zero =>
    intro k h2 hm
    have hk : n ≤ k := by omega
    rw [fibExtend, if_neg (by simp [fibList_length]; omega)]
    rw [Nat.max_eq_left hk]
  | succ m ih =>
    intro k h2 hm
    by_cases h : k < n
    · rw [fibExtend, if_pos (by simpa [fibList_length])]
      have hstep : (fibList k).getD ((fibList k).length - 1) 0 +
          (fibList k).getD ((fibList k).length - 2) 0 = fib k := by
        rw [fibList_length, fibList_getD k (k - 1) (by omega),
          fibList_getD k (k - 2) (by omega), ← fib_eq_of_two_le k h2]
      rw [hstep, ← fibList_succ, ih (k + 1) (by omega) (by omega)]
      have ha : max k n = n := Nat.max_eq_right (by omega)
      have hb : max (k + 1) n = n := Nat.max_eq_right (by omega)
      rw [ha, hb]
    · rw [fibExtend, if_neg (by simp [fibList_length]; omega)]
      rw [Nat.max_eq_left (by omega)]

lemma fibList_two : fibList 2 = [0, 1] := by
  decide

lemma rubyFibonacci_eq (n : Int) : MathUtils.fibonacci n = fibList n.toNat := by
  unfold MathUtils.fibonacci
  by_cases h0 : n ≤ 0
  · rw [if_pos h0]
    have hz : n.toNat = 0 := by omega
    simp [hz, fibList]
  · rw [if_neg h0]
    by_cases h1 : n = 1
    · rw [if_pos h1, h1]
      decide
    · rw [if_neg h1]
      have h2 : 2 ≤ n.toNat := by omega
      rw [← fibList_two, fibExtend_fibList n.toNat (n.toNat - 2) 2 (by omega) (by omega),
        Nat.max_eq_right h2]

lemma fibP_spec (k : Nat) : fibP k = (fib k, fib (k + 1)) := by
  induction k with
  | zero => rfl
  | succ k ih =>
    rw [fibP, ih]
    rfl

lemma fibIter_eq (n : Nat) : fibIter n = fibList n := by
  induction n with
  | zero => rfl
  | succ n ih => rw [fibIter, ih, fibList_succ, fibP_spec]

lemma fib_nonneg_pair (k : Nat) : 0 ≤ fib k ∧ 0 ≤ fib (k + 1) := by
  induction k with
  | zero => exact ⟨by decide, by decide⟩
  | succ k ih =>
    refine ⟨ih.2, ?_⟩
    show 0 ≤ fib k + fib (k + 1)
    exact add_nonneg ih.1 ih.2

lemma fib_nonneg (k : Nat) : 0 ≤ fib k :=
  (fib_nonneg_pair k).1

lemma fib_le_succ (k : Nat) : fib k ≤ fib (k + 1) := by
  cases k with
  | zero => decide
  | succ k =>
    show fib (k + 1) ≤ fib k + fib (k + 1)
    exact le_add_of_nonneg_left (fib_nonneg k)

lemma fib_le_fib {i j : Nat} (h : i ≤ j) : fib i ≤ fib j := by
  induction j with
  | zero =>
    have hz : i = 0 := by omega
    subst hz
    exact le_refl _
  | succ j ih =>
    by_cases hij : i ≤ j
    · exact (ih hij).trans (fib_le_succ j)
    · have he : i = j + 1 := by omega
      subst he
      exact le_refl _

lemma fib_lt_pow53 (i : Nat) (h : i ≤ 78) : fib i < 2 ^ 53 := by
  have h78 : fib 78 < 2 ^ 53 := by
    have hs : fib 78 = (fibP 78).1 := by rw [fibP_spec]
    rw [hs]
    decide
  exact lt_of_le_of_lt (fib_le_fib h) h78

lemma fib_lt_pow63 (i : Nat) (h : i ≤ 92) : fib i < 2 ^ 63 := by
  have h92 : fib 92 < 2 ^ 63 := by
    have hs : fib 92 = (fibP 92).1 := by rw [fibP_spec]
    rw [hs]
    decide
  exact lt_of_le_of_lt (fib_le_fib h) h92

lemma roundPos_eq_self (v : Nat) (h : v < 2 ^ 53) : roundPos v = v := by
  unfold roundPos
  rw [if_pos h]

lemma addF64_small (a b : Int) (h0 : 0 ≤ a + b) (h1 : a + b < 2 ^ 53) :
    addF64 a b = a + b := by
  unfold addF64 roundF64
  rw [if_neg (by omega)]
  have e53i : (2 : Int) ^ 53 = 9007199254740992 := by norm_num
  have e53n : (2 : Nat) ^ 53 = 9007199254740992 := by norm_num
  have hn : (a + b).natAbs < 2 ^ 53 := by omega
  rw [roundPos_eq_self _ hn]
  omega

lemma wrap64_eq_self (x : Int) (h0 : -(2 ^ 63) ≤ x) (h1 : x < 2 ^ 63) : wrap64 x = x := by
  unfold wrap64
  have e63 : (2 : Int) ^ 63 = 9223372036854775808 := by norm_num
  have e64 : (2 : Int) ^ 64 = 18446744073709551616 := by norm_num
  rw [e63, e64]
  rw [e63] at h0
  rw [e63] at h1
  omega

lemma fibExtendF64_fibList :
    ∀ (fuel k : Nat), 2 ≤ k → k + fuel ≤ 79 →
      fibExtendF64 fuel (fibList k) = fibList (k + fuel) := by
  intro fuel
  induction fuel with
  | zero =>
    intro k h2 h79
    rfl
  | succ fuel ih =>
    intro k h2 h79
    rw [fibExtendF64]
    rw [fibList_length, fibList_getD k (k - 1) (by omega), fibList_getD k (k - 2) (by omega)]
    have hsum : fib (k - 1) + fib (k - 2) = fib k := (fib_eq_of_two_le k h2).symm
    have hv : addF64 (fib (k - 1)) (fib (k - 2)) = fib k := by
      rw [addF64_small (fib (k - 1)) (fib (k - 2))
        (add_nonneg (fib_nonneg _) (fib_nonneg _))
        (by rw [hsum]; exact fib_lt_pow53 k (by omega))]
      exact hsum
    rw [hv, ← fibList_succ, ih (k + 1) (by omega) (by omega)]
    congr 1
    omega

lemma Go.fibFill_fibList :
    ∀ (fuel i : Nat), 2 ≤ i → i + fuel ≤ 93 →
      Go.fibFill fuel i (fibList i) = fibList (i + fuel) := by
  intro fuel
  induction fuel with
  | zero =>
    intro i h2 h93
    rfl
  | succ fuel ih =>
    intro i h2 h93
    rw [Go.fibFill]
    rw [fibList_getD i (i - 1) (by omega), fibList_getD i (i - 2) (by omega)]
    have hsum : fib (i - 1) + fib (i - 2) = fib i := (fib_eq_of_two_le i h2).symm
    have hw : wrap64 (fib (i - 1) + fib (i - 2)) = fib i := by
      rw [hsum]
      exact wrap64_eq_self _ (le_trans (by norm_num) (fib_nonneg i)) (fib_lt_pow63 i (by omega))
    rw [hw, ← fibList_succ, ih (i + 1) (by omega) (by omega)]
    congr 1
    omega

lemma tsFibonacci_eq (n : Int) (h : n ≤ 79) : TS.fibonacci n = fibList n.toNat := by
  unfold TS.fibonacci
  by_cases h0 : n ≤ 0
  · rw [if_pos h0]
    have hz : n.toNat = 0 := by omega
    simp [hz, fibList]
  · rw [if_neg h0]
    by_cases h1 : n = 1
    · rw [if_pos h1, h1]
      decide
    · rw [if_neg h1]
      rw [← fibList_two, fibExtendF64_fibList (n.toNat - 2) 2 (by omega) (by omega)]
      congr 1
      omega

lemma jsFibonacci_eq (n : Int) (h : n ≤ 79) : JS.fibonacci n = fibList n.toNat :=
  tsFibonacci_eq n h

lemma goFibonacci_eq (n : Int) (h : n ≤ 93) : Go.Fibonacci n = fibList n.toNat := by
  unfold Go.Fibonacci
  by_cases h0 : n ≤ 0
  · rw [if_pos h0]
    have hz : n.toNat = 0 := by omega
    simp [hz, fibList]
  · rw [if_neg h0]
    by_cases h1 : n = 1
    · rw [if_pos h1, h1]
      decide
    · rw [if_neg h1]
      rw [← fibList_two, Go.fibFill_fibList (n.toNat - 2) 2 (by omega) (by omega)]
      congr 1
      omega

/-! ### Lemmas about the factorial embeddings -/

lemma rubyFactorial_eq_prod (n : Int) :
    MathUtils.factorial n = ((List.range' 1 n.toNat).map Int.ofNat).prod := by
  unfold MathUtils.factorial
  by_cases h : n ≤ 1
  · rw [if_pos h]
    rcases Nat.lt_or_ge n.toNat 1 with h0 | h1
    · have : n.toNat = 0 := by omega
      simp [this]
    · have : n.toNat = 1 := by omega
      simp [this]
  · rw [if_neg h]

/-! ### Claim theorems for the concrete algorithm embeddings -/

set_option maxRecDepth 8000 in
/-- C8 counterexample: the claimed all-`n` equivalence of the four
fibonacci implementations fails under the machine arithmetic the sources
actually use.  At `n = 80` the TypeScript/JavaScript binary64 sequence
rounds its last element (`fib 79` exceeds `2^53`) and differs from Ruby's
exact sequence; at `n = 94` Go's int64 addition wraps (`fib 93` exceeds
`2^63 - 1`, giving -6246583658587674878) and differs from Ruby's. -/
theorem fibonacci_implementations_equivalent_counterexample :
    TS.fibonacci 80 ≠ MathUtils.fibonacci 80 ∧
      Go.Fibonacci 94 ≠ MathUtils.fibonacci 94 := by
  constructor
  · rw [rubyFibonacci_eq, ← fibIter_eq]
    decide
  · rw [rubyFibonacci_eq, ← fibIter_eq]
    decide

/-- C8 (amended): with each language's machine arithmetic modelled
(binary64 for TypeScript/JavaScript, wrapping int64 for Go, exact bignums
for Ruby), the TypeScript and JavaScript implementations agree for every
integer `n`; all four agree — each returning exactly the first `n`
Fibonacci numbers — for every `n ≤ 79`; and Go agrees with Ruby for every
`n ≤ 93`.  Beyond those bounds binary64 rounding (from `fib 79`) and int64
wraparound (at `fib 93`) break the equivalence. -/
theorem fibonacci_implementations_equivalent_amended :
    (∀ n : Int, TS.fibonacci n = JS.fibonacci n) ∧
    (∀ n : Int, n ≤ 79 →
      TS.fibonacci n = MathUtils.fibonacci n ∧
      TS.fibonacci n = (List.range n.toNat).map fib) ∧
    (∀ n : Int, n ≤ 93 → Go.Fibonacci n = MathUtils.fibonacci n) := by
  refine ⟨fun n => rfl, ?_, ?_⟩
  · intro n h
    have ht := tsFibonacci_eq n h
    have hr := rubyFibonacci_eq n
    exact ⟨ht.trans hr.symm, ht⟩
  · intro n h
    exact (goFibonacci_eq n h).trans (rubyFibonacci_eq n).symm

/-- Witness for C8 (amended) at `n = 10`. -/
theorem fibonacci_implementations_equivalent_amended_witness :
    TS.fibonacci 10 = MathUtils.fibonacci 10 ∧ Go.Fibonacci 10 = MathUtils.fibonacci 10 :=
  ⟨(fibonacci_implementations_equivalent_amended.2.1 10 (by norm_num)).1,
    fibonacci_implementations_equivalent_amended.2.2 10 (by norm_num)⟩

/-- C9: the division helpers (TypeScript `divide`, Go `divide`, Go
`SafeDivide`) take their error branch exactly when the divisor is zero; in
the error case the TypeScript result carries no data field and the Go
functions return the zero value together with the error, and for every
nonzero divisor all three return the success branch carrying the quotient. -/
theorem divide_error_iff_divisor_zero :
    ∀ a b : Rat,
      ((TS.divide a b).isFailure = true ↔ b = 0) ∧
      ((Go.divide a b).2.isSome = true ↔ b = 0) ∧
      ((Go.SafeDivide a b).2.isSome = true ↔ b = 0) ∧
      (b = 0 → TS.divide a b = .failure "Division by zero" ∧
        Go.divide a b = (0, some "division by zero") ∧
        Go.SafeDivide a b = (0, some .divisionByZero)) ∧
      (b ≠ 0 → TS.divide a b = .success (a / b) ∧
        Go.divide a b = (a / b, none) ∧
        Go.SafeDivide a b = (a / b, none)) := by
  intro a b
  by_cases hb : b = 0
  · simp [TS.divide, Go.divide, Go.SafeDivide, TSResult.isFailure, hb]
  · simp [TS.divide, Go.divide, Go.SafeDivide, TSResult.isFailure, hb]

/-- Witness for C9 at `a = 10` with divisors `2` and `0`. -/
theorem divide_error_iff_divisor_zero_witness :
    TS.divide 10 2 = .success 5 ∧ Go.divide 10 0 = (0, some "division by zero") ∧
      Go.SafeDivide 10 0 = (0, some .divisionByZero) := by
  have hok := (divide_error_iff_divisor_zero 10 2).2.2.2.2 (by norm_num)
  have herr := (divide_error_iff_divisor_zero 10 0).2.2.2.1 rfl
  refine ⟨?_, herr.2.1, herr.2.2⟩
  have hdiv : (10 : Rat) / 2 = 5 := by norm_num
  rw [hok.1, hdiv]

set_option maxRecDepth 8000 in
/-- C10 counterexample: the two factorial implementations do not agree on
all integer inputs — at `n = 23` the JavaScript binary64 multiplication
rounds (`23!` needs more than 53 significant bits), so `JS.factorial 23`
differs from Ruby's exact `23!`. -/
theorem factorial_implementations_agree_counterexample :
    JS.factorial 23 ≠ MathUtils.factorial 23 := by
  decide

set_option maxRecDepth 8000 in
/-- C10 (amended): both implementations return 1 for every `n ≤ 1`
(including 0 and all negative integers); Ruby returns the exact product
`1 · 2 · … · n` for every `n`; and the two agree for every `2 ≤ n ≤ 22` —
the whole range in which the JavaScript binary64 products stay exactly
representable.  From `n = 23` the JavaScript float rounds and the
implementations diverge. -/
theorem factorial_implementations_agree_amended :
    (∀ n : Int, n ≤ 1 → JS.factorial n = 1 ∧ MathUtils.factorial n = 1) ∧
    (∀ n : Int, MathUtils.factorial n = ((List.range' 1 n.toNat).map Int.ofNat).prod) ∧
    (∀ n : Int, 2 ≤ n → n ≤ 22 → JS.factorial n = MathUtils.factorial n) := by
  refine ⟨?_, rubyFactorial_eq_prod, ?_⟩
  · intro n h
    constructor
    · rw [JS.factorial, if_pos h]
    · rw [MathUtils.factorial, if_pos h]
  · intro n h2 h22
    interval_cases n <;> decide

/-- Witness for C10 (amended) at `n = 5` and `n = -3`. -/
theorem factorial_implementations_agree_amended_witness :
    JS.factorial 5 = MathUtils.factorial 5 ∧ JS.factorial (-3) = 1 :=
  ⟨factorial_implementations_agree_amended.2.2 5 (by norm_num) (by norm_num),
    (factorial_implementations_agree_amended.1 (-3) (by norm_num)).1⟩

/-! ### The worker pool

Small-step embedding of the Go worker-pool fragment (src/unnamed/part_001):

```
func worker(id int, jobs <-chan int, results chan<- int, wg *sync.WaitGroup) {
    defer wg.Done()
    for job := range jobs { results <- job * 2 }
}
```

together with the pool section of `main` (lines 633-657): spawn 3 workers,
send jobs 1..5, `close(jobs)`, and a goroutine that runs `wg.Wait()` then
`close(results)`.

A pool state records the job channel (a FIFO list tagged with sequence
positions), the emitted results in emission order, and the workers.  Since
the worker body never uses its `id`, per-worker state is kept as counts: how
many workers are blocked on channel receive (`nRunning`), which jobs are
held by a worker mid-transform (`inflight`, one entry per processing
worker), and how many workers have returned (`nStopped`, i.e. have called
`wg.Done()`).  An execution is an arbitrary finite schedule of atomic
steps, one per interleaving point of the goroutines.

The spec generalises the hardcoded parts: the transform is a caller
function that may fail (spec §4.2, `Err(reason)` wrapping), the worker
count is arbitrary, and a Cancellation Signal may stop workers between
jobs (spec §3); those generalisations are modelled from the spec, as are
the operations `new`, `submit`/`closeQueue` and Ordered mode, which have
no source counterpart at all. -/

namespace Pool

/-- Outcome of one invocation of the caller-supplied transform: normal
result, or a non-fatal error to be wrapped as `Err(reason)` in the result
stream (spec §4.2).  The source transform `job * 2` never fails. -/
inductive TOut where
  | ok (value : Int)
  | err (reason : String)
  deriving DecidableEq, Repr

/-- State of the pool between atomic steps.  `queue`/`queueClosed` model
the `jobs` channel (already loaded and closed: the drain scenario of
`main`, which sends all jobs and calls `close(jobs)`); `nRunning` workers
are blocked on `for job := range jobs`; `inflight` holds the job each
processing worker has received but not yet emitted; `nStopped` workers
have returned; `results` is the `results` channel content in emission
order, `resultsClosed` its closed flag; `cancel` is the spec's shared
Cancellation Signal. -/
structure PoolState where
  total : Nat
  queue : List (Nat × Int)
  queueClosed : Bool
  cancel : Bool
  nRunning : Nat
  inflight : Multiset (Nat × Int)
  nStopped : Nat
  results : List (Nat × TOut)
  resultsClosed : Bool
  deriving DecidableEq

/-- One atomic step of some goroutine: a worker receiving the queue head
(`fetch`), a worker finishing a held job and emitting its result
(`finish`), a worker observing closed-and-empty (or cancellation) and
returning (`stopWorker`), the controller goroutine closing the result
sink after `wg.Wait()` (`closeResults`), or the controller raising the
Cancellation Signal (`setCancel`, spec-only). -/
inductive Action where
  | fetch
  | finish (pos : Nat) (payload : Int)
  | stopWorker
  | closeResults
  | setCancel
  deriving DecidableEq, Repr

/-- One enabled transition, or `none` when the action is not enabled in
`s`.  `fetch` is the channel receive in `for job := range jobs` (FIFO,
single-consumer: the head job goes to exactly one worker); `finish p x`
applies the transform once to the held job and appends `(p, f x)` to the
result stream — on an `err` outcome the worker continues, it does not
stop; `stopWorker` is the loop exit (channel closed and drained, or the
spec's cancellation observed between jobs) followed by `wg.Done()`;
`closeResults` requires every worker to have called `wg.Done()`. -/
def step (f : Int → TOut) (s : PoolState) : Action → Option PoolState
  | .fetch =>
    match s.queue with
    | [] => none
    | (p, x) :: rest =>
      if s.cancel = false ∧ 1 ≤ s.nRunning then
        some { s with queue := rest, nRunning := s.nRunning - 1,
                      inflight := s.inflight + {(p, x)} }
      else none
  | .finish p x =>
    if (p, x) ∈ s.inflight then
      some { s with inflight := s.inflight.erase (p, x), nRunning := s.nRunning + 1,
                    results := s.results ++ [(p, f x)] }
    else none
  | .stopWorker =>
    if 1 ≤ s.nRunning ∧ (s.cancel = true ∨ (s.queueClosed = true ∧ s.queue = [])) then
      some { s with nRunning := s.nRunning - 1, nStopped := s.nStopped + 1 }
    else none
  | .closeResults =>
    if s.nStopped = s.total ∧ s.resultsClosed = false then
      some { s with resultsClosed := true }
    else none
  | .setCancel => some { s with cancel := true }

/-- Run a schedule: disabled actions are skipped, so quantifying over all
schedules quantifies over all interleavings. -/
def run (f : Int → TOut) (sched : List Action) (s : PoolState) : PoolState :=
  sched.foldl (fun t a => (step f t a).getD t) s

/-- Pool state right after `main` has spawned `n` workers, sent the jobs
`js` (tagged with their sequence positions) and closed the job channel. -/
def initState (js : List Int) (n : Nat) : PoolState :=
  { total := n, queue := js.enum, queueClosed := true, cancel := false,
    nRunning := n, inflight := 0, nStopped := 0, results := [], resultsClosed := false }

/-- The transform hardcoded in the Go source: `results <- job * 2`. -/
def double (x : Int) : TOut :=
  .ok (x * 2)

/-- Errors of the spec's pool API (§7). -/
inductive PoolError where
  | invalidConfig
  | closedQueue
  | reorderOverflow
  deriving DecidableEq, Repr

/-- Validated construction parameters of a pool. -/
structure PoolConfig where
  workerCount : Int
  queueCapacity : Int
  resultCapacity : Int
  ordered : Bool
  deriving DecidableEq, Repr

/-- Modelled from the spec: `new(workerCount, transform, queueCapacity,
resultCapacity, mode)` of §4.4 — absent from the source, which hardcodes 3
workers and capacities 5/5.  Validates `workerCount ≥ 1` and capacities
`≥ 0`; fails with `InvalidConfig` otherwise. -/
def new (workerCount queueCapacity resultCapacity : Int) (ordered : Bool) :
    Except PoolError PoolConfig :=
  if workerCount < 1 ∨ queueCapacity < 0 ∨ resultCapacity < 0 then
    .error .invalidConfig
  else
    .ok ⟨workerCount, queueCapacity, resultCapacity, ordered⟩

/-- Modelled from the spec: `submit(job)`/`enqueue(job)` of §4.1/§4.4 —
the source only sends on the open channel; sending after close would panic
in Go, the spec requires the typed `ClosedQueue` failure instead.
Backpressure blocking is not modelled. -/
def submit (s : PoolState) (j : Nat × Int) : Except PoolError PoolState :=
  if s.queueClosed = true then .error .closedQueue
  else .ok { s with queue := s.queue ++ [j] }

/-- The queue-closing half of `shutdown(drain := true)` (spec §4.4); in
the Go source this is `close(jobs)` at line 646. -/
def closeQueue (s : PoolState) : PoolState :=
  { s with queueClosed := true }

/-- Modelled from the spec: Ordered delivery mode (§4.3) — the sink
releases results keyed by sequence position strictly in submission order.
`orderedOut k rs` is the released sequence once all `k` results are in. -/
def orderedOut (k : Nat) (rs : List (Nat × TOut)) : List TOut :=
  (List.range k).filterMap fun p => rs.lookup p

/-! ### Invariants of the pool transition system -/

/-- Worker conservation: every one of the `total` spawned workers is
receiving, processing, or has returned. -/
def CountInv (s : PoolState) : Prop :=
  s.nRunning + Multiset.card s.inflight + s.nStopped = s.total

/-- The result sink is only ever closed after every worker has called
`wg.Done()`. -/
def SinkInv (s : PoolState) : Prop :=
  s.resultsClosed = true → s.nStopped = s.total

/-- Without cancellation, workers only come to rest once the queue is
drained. -/
def DrainInv (s : PoolState) : Prop :=
  s.cancel = false → s.nRunning = 0 → s.inflight = 0 → s.queue = []

/-- Provenance invariant: the results so far arise from a list `done` of
consumed jobs (in emission order, one transform application each), and the
queued, in-flight and consumed jobs together account exactly for the
submitted jobs. -/
def okState (js : List Int) (f : Int → TOut) (s : PoolState) : Prop :=
  ∃ done : List (Nat × Int),
    s.results = done.map (fun q => (q.1, f q.2)) ∧
    ((s.queue : Multiset (Nat × Int)) + s.inflight + (done : Multiset (Nat × Int))
      = (js.enum : Multiset (Nat × Int)))

lemma step_cases (f : Int → TOut) (s : PoolState) (a : Action) (s' : PoolState)
    (h : step f s a = some s') :
    (∃ p x rest, s.queue = (p, x) :: rest ∧ s.cancel = false ∧ 1 ≤ s.nRunning ∧
      s' = { s with queue := rest, nRunning := s.nRunning - 1,
                    inflight := s.inflight + {(p, x)} }) ∨
    (∃ p x, (p, x) ∈ s.inflight ∧
      s' = { s with inflight := s.inflight.erase (p, x), nRunning := s.nRunning + 1,
                    results := s.results ++ [(p, f x)] }) ∨
    (1 ≤ s.nRunning ∧ (s.cancel = true ∨ (s.queueClosed = true ∧ s.queue = [])) ∧
      s' = { s with nRunning := s.nRunning - 1, nStopped := s.nStopped + 1 }) ∨
    (s.nStopped = s.total ∧ s.resultsClosed = false ∧
      s' = { s with resultsClosed := true }) ∨
    (s' = { s with cancel := true }) := by
  cases a with
  | fetch =>
    dsimp [step] at h
    split at h
    · exact absurd h (by simp)
    · split at h
      · rename_i p x rest hq hc
        exact Or.inl ⟨p, x, rest, hq, hc.1, hc.2, (Option.some.injEq _ _).mp h.symm⟩
      · exact absurd h (by simp)
  | finish p x =>
    dsimp [step] at h
    split at h
    · rename_i hm
      exact Or.inr (Or.inl ⟨p, x, hm, (Option.some.injEq _ _).mp h.symm⟩)
    · exact absurd h (by simp)
  | stopWorker =>
    dsimp [step] at h
    split at h
    · rename_i hg
      exact Or.inr (Or.inr (Or.inl ⟨hg.1, hg.2, (Option.some.injEq _ _).mp h.symm⟩))
    · exact absurd h (by simp)
  | closeResults =>
    dsimp [step] at h
    split at h
    · rename_i hg
      exact Or.inr (Or.inr (Or.inr (Or.inl ⟨hg.1, hg.2, (Option.some.injEq _ _).mp h.symm⟩)))
    · exact absurd h (by simp)
  | setCancel =>
    dsimp [step] at h
    exact Or.inr (Or.inr (Or.inr (Or.inr ((Option.some.injEq _ _).mp h.symm))))

lemma count_step {f : Int → TOut} {s s' : PoolState} {a : Action}
    (h : step f s a = some s') (hc : CountInv s) : CountInv s' := by
  unfold CountInv at *
  rcases step_cases f s a s' h with
    ⟨p, x, rest, hq, hcan, hn, rfl⟩ | ⟨p, x, hm, rfl⟩ | ⟨hn, hg, rfl⟩ | ⟨h1, h2, rfl⟩ | rfl
  · simp only [Multiset.card_add, Multiset.card_singleton]
    omega
  · have hcard : Multiset.card s.inflight = Multiset.card (s.inflight.erase (p, x)) + 1 := by
      conv_lhs => rw [← Multiset.cons_erase hm]
      simp
    simp only
    omega
  · simp only
    omega
  · simpa using hc
  · simpa using hc

lemma sink_step {f : Int → TOut} {s s' : PoolState} {a : Action}
    (h : step f s a = some s') (hc : CountInv s) (hs : SinkInv s) : SinkInv s' := by
  unfold CountInv SinkInv at *
  rcases step_cases f s a s' h with
    ⟨p, x, rest, hq, hcan, hn, rfl⟩ | ⟨p, x, hm, rfl⟩ | ⟨hn, hg, rfl⟩ | ⟨h1, h2, rfl⟩ | rfl
  · intro hcl
    have := hs hcl
    omega
  · intro hcl
    have hpos : 0 < Multiset.card s.inflight := by
      rw [Multiset.card_pos_iff_exists_mem]
      exact ⟨_, hm⟩
    have := hs hcl
    omega
  · intro hcl
    have := hs hcl
    omega
  · intro _
    simpa using h1
  · intro hcl
    exact hs hcl

lemma drain_step {f : Int → TOut} {s s' : PoolState} {a : Action}
    (h : step f s a = some s') (hd : DrainInv s) : DrainInv s' := by
  unfold DrainInv at *
  rcases step_cases f s a s' h with
    ⟨p, x, rest, hq, hcan, hn, rfl⟩ | ⟨p, x, hm, rfl⟩ | ⟨hn, hg, rfl⟩ | ⟨h1, h2, rfl⟩ | rfl
  · intro _ _ hi
    exact absurd hi (by simp)
  · intro _ hr
    exact absurd hr (by simp)
  · intro hcan _ _
    simp only at hcan ⊢
    rcases hg with hg | hg
    · rw [hcan] at hg
      exact absurd hg (by simp)
    · exact hg.2
  · exact hd
  · intro hcan
    exact absurd hcan (by simp)

lemma okState_step {js : List Int} {f : Int → TOut} {s s' : PoolState} {a : Action}
    (h : step f s a = some s') (hok : okState js f s) : okState js f s' := by
  obtain ⟨done, hres, hsum⟩ := hok
  rcases step_cases f s a s' h with
    ⟨p, x, rest, hq, hcan, hn, rfl⟩ | ⟨p, x, hm, rfl⟩ | ⟨hn, hg, rfl⟩ | ⟨h1, h2, rfl⟩ | rfl
  · refine ⟨done, hres, ?_⟩
    dsimp only
    rw [hq] at hsum
    rw [← hsum, ← Multiset.cons_coe, ← Multiset.singleton_add]
    abel
  · refine ⟨done ++ [(p, x)], ?_, ?_⟩
    · dsimp only
      rw [hres]
      simp only [List.map_append, List.map_cons, List.map_nil]
    · dsimp only
      rw [← hsum]
      conv_rhs => rw [← Multiset.cons_erase hm]
      rw [← Multiset.coe_add, Multiset.coe_singleton, ← Multiset.singleton_add]
      abel
  · exact ⟨done, hres, hsum⟩
  · exact ⟨done, hres, hsum⟩
  · exact ⟨done, hres, hsum⟩

lemma cancel_step {f : Int → TOut} {s s' : PoolState} {a : Action}
    (ha : a ≠ Action.setCancel) (h : step f s a = some s') : s'.cancel = s.cancel := by
  cases a with
  | setCancel => exact absurd rfl ha
  | fetch =>
    dsimp [step] at h
    split at h
    · exact Option.noConfusion h
    · split at h
      · injection h with h
        subst h
        rfl
      · exact Option.noConfusion h
  | finish p x =>
    dsimp [step] at h
    split at h
    · injection h with h
      subst h
      rfl
    · exact Option.noConfusion h
  | stopWorker =>
    dsimp [step] at h
    split at h
    · injection h with h
      subst h
      rfl
    · exact Option.noConfusion h
  | closeResults =>
    dsimp [step] at h
    split at h
    · injection h with h
      subst h
      rfl
    · exact Option.noConfusion h

lemma total_step {f : Int → TOut} {s s' : PoolState} {a : Action}
    (h : step f s a = some s') : s'.total = s.total := by
  rcases step_cases f s a s' h with
    ⟨p, x, rest, hq, hcan, hn, rfl⟩ | ⟨p, x, hm, rfl⟩ | ⟨hn, hg, rfl⟩ | ⟨h1, h2, rfl⟩ | rfl <;> rfl

lemma closed_step {f : Int → TOut} {s s' : PoolState} {a : Action}
    (h : step f s a = some s') : s'.queueClosed = s.queueClosed := by
  rcases step_cases f s a s' h with
    ⟨p, x, rest, hq, hcan, hn, rfl⟩ | ⟨p, x, hm, rfl⟩ | ⟨hn, hg, rfl⟩ | ⟨h1, h2, rfl⟩ | rfl <;> rfl

lemma run_cons (f : Int → TOut) (a : Action) (t : List Action) (s : PoolState) :
    run f (a :: t) s = run f t ((step f s a).getD s) :=
  rfl

lemma run_pres (f : Int → TOut) (P : PoolState → Prop)
    (hP : ∀ s a s', step f s a = some s' → P s → P s') :
    ∀ (sched : List Action) (s : PoolState), P s → P (run f sched s) := by
  intro sched
  induction sched with
  | nil => exact fun s h => h
  | cons a t ih =>
    intro s h
    rw [run_cons]
    cases hst : step f s a with
    | none => exact ih s h
    | some s' => exact ih s' (hP s a s' hst h)

lemma run_cancel (f : Int → TOut) (sched : List Action) (s : PoolState)
    (h : Action.setCancel ∉ sched) : (run f sched s).cancel = s.cancel := by
  induction sched generalizing s with
  | nil => rfl
  | cons a t ih =>
    have ha : a ≠ Action.setCancel := fun he => h (he ▸ List.mem_cons_self a t)
    have ht : Action.setCancel ∉ t := fun hm => h (List.mem_cons_of_mem _ hm)
    rw [run_cons]
    cases hst : step f s a with
    | none => exact ih s ht
    | some s' => exact (ih s' ht).trans (cancel_step ha hst)

lemma run_total (f : Int → TOut) (sched : List Action) (s : PoolState) :
    (run f sched s).total = s.total := by
  induction sched generalizing s with
  | nil => rfl
  | cons a t ih =>
    rw [run_cons]
    cases hst : step f s a with
    | none => exact ih s
    | some s' => exact (ih s').trans (total_step hst)

lemma base_run (js : List Int) (f : Int → TOut) (n : Nat) (sched : List Action) :
    CountInv (run f sched (initState js n)) ∧ SinkInv (run f sched (initState js n)) ∧
      okState js f (run f sched (initState js n)) := by
  refine run_pres f (fun s => CountInv s ∧ SinkInv s ∧ okState js f s)
    (fun s a s' h hP => ⟨count_step h hP.1, sink_step h hP.1 hP.2.1, okState_step h hP.2.2⟩)
    sched _ ⟨?_, ?_, ?_⟩
  · simp [CountInv, initState]
  · intro h
    simp [initState] at h
  · exact ⟨[], rfl, by simp [initState]⟩

lemma drain_run (js : List Int) (f : Int → TOut) (n : Nat) (sched : List Action)
    (hn : 1 ≤ n) : DrainInv (run f sched (initState js n)) := by
  refine run_pres f DrainInv (fun s a s' h hd => drain_step h hd) sched _ ?_
  intro _ hr _
  dsimp [initState] at hr
  omega

/-- Key completeness lemma: in any drain execution (no cancellation) whose
result sink got closed, the emitted results are exactly one per submitted
job, each computed by the transform. -/
lemma run_complete (js : List Int) (n : Nat) (f : Int → TOut) (sched : List Action)
    (hn : 1 ≤ n) (hnc : Action.setCancel ∉ sched)
    (hcl : (run f sched (initState js n)).resultsClosed = true) :
    ((run f sched (initState js n)).results : Multiset (Nat × TOut))
      = ↑(js.enum.map fun q => (q.1, f q.2)) := by
  obtain ⟨hcount, hsink, done, hres, hsum⟩ := base_run js f n sched
  have htot : (run f sched (initState js n)).total = n := run_total f sched _
  have hstop := hsink hcl
  unfold CountInv at hcount
  have hr0 : (run f sched (initState js n)).nRunning = 0 := by omega
  have hcard : Multiset.card (run f sched (initState js n)).inflight = 0 := by omega
  have hi0 : (run f sched (initState js n)).inflight = 0 := Multiset.card_eq_zero.mp hcard
  have hcanc : (run f sched (initState js n)).cancel = false := run_cancel f sched _ hnc
  have hq0 : (run f sched (initState js n)).queue = [] :=
    drain_run js f n sched hn hcanc hr0 hi0
  rw [hq0, hi0] at hsum
  simp only [Multiset.coe_nil, add_zero, zero_add] at hsum
  rw [hres]
  exact Multiset.coe_eq_coe.mpr ((Multiset.coe_eq_coe.mp hsum).map _)

/-- No result position is ever emitted twice, in any execution. -/
lemma run_nodup (js : List Int) (n : Nat) (f : Int → TOut) (sched : List Action) :
    (((run f sched (initState js n)).results.map Prod.fst)).Nodup := by
  obtain ⟨-, -, done, hres, hsum⟩ := base_run js f n sched
  rw [hres]
  have hfst : (done.map fun q => (q.1, f q.2)).map Prod.fst = done.map Prod.fst := by
    simp [List.map_map, Function.comp]
  rw [hfst]
  have hle : (done : Multiset (Nat × Int)) ≤ ↑js.enum := hsum ▸ le_add_self
  have hmap : ((done.map Prod.fst : List Nat) : Multiset Nat)
      ≤ ↑(js.enum.map Prod.fst) := by
    simpa using Multiset.map_le_map (f := Prod.fst) hle
  have henum : js.enum.map Prod.fst = List.range js.length := List.enum_map_fst js
  have hnd : ((js.enum.map Prod.fst : List Nat) : Multiset Nat).Nodup := by
    rw [henum]
    exact Multiset.coe_nodup.mpr (List.nodup_range _)
  exact Multiset.coe_nodup.mp (Multiset.nodup_of_le hmap hnd)

/-- Termination measure for the drain argument: every enabled worker step
strictly decreases it. -/
def measureP (s : PoolState) : Nat :=
  2 * s.queue.length + 2 * Multiset.card s.inflight + s.nRunning

lemma exists_drain (f : Int → TOut) :
    ∀ (m : Nat) (s : PoolState), measureP s ≤ m → s.queueClosed = true →
      ∃ sched : List Action,
        (run f sched s).nRunning = 0 ∧ (run f sched s).inflight = 0 := by
  intro m
  induction m with
  | zero =>
    intro s hm _
    unfold measureP at hm
    refine ⟨[], by show s.nRunning = 0; omega, ?_⟩
    show s.inflight = 0
    have hc : Multiset.card s.inflight = 0 := by omega
    exact Multiset.card_eq_zero.mp hc
  | succ m ih =>
    intro s hm hcl
    by_cases hi : s.inflight = 0
    · by_cases hr : s.nRunning = 0
      · exact ⟨[], hr, hi⟩
      · have hr1 : 1 ≤ s.nRunning := by omega
        cases hq : s.queue with
        | nil =>
          have hstep : step f s .stopWorker =
              some { s with nRunning := s.nRunning - 1, nStopped := s.nStopped + 1 } := by
            dsimp [step]
            rw [if_pos ⟨hr1, Or.inr ⟨hcl, hq⟩⟩]
          obtain ⟨sched, h1, h2⟩ :=
            ih { s with nRunning := s.nRunning - 1, nStopped := s.nStopped + 1 }
              (by unfold measureP at hm ⊢; dsimp only; omega) hcl
          exact ⟨.stopWorker :: sched, by rw [run_cons, hstep]; exact h1,
            by rw [run_cons, hstep]; exact h2⟩
        | cons pr rest =>
          obtain ⟨p, x⟩ := pr
          by_cases hcan : s.cancel = true
          · have hstep : step f s .stopWorker =
                some { s with nRunning := s.nRunning - 1, nStopped := s.nStopped + 1 } := by
              dsimp [step]
              rw [if_pos ⟨hr1, Or.inl hcan⟩]
            obtain ⟨sched, h1, h2⟩ :=
              ih { s with nRunning := s.nRunning - 1, nStopped := s.nStopped + 1 }
                (by unfold measureP at hm ⊢; dsimp only; omega) hcl
            exact ⟨.stopWorker :: sched, by rw [run_cons, hstep]; exact h1,
              by rw [run_cons, hstep]; exact h2⟩
          · have hcan' : s.cancel = false := by simpa using hcan
            have hstep : step f s .fetch =
                some { s with queue := rest, nRunning := s.nRunning - 1, inflight := s.inflight + {(p, x)} } := by
              dsimp [step]
              rw [hq]
              dsimp only
              rw [if_pos ⟨hcan', hr1⟩]
            have hlen : s.queue.length = rest.length + 1 := by rw [hq]; rfl
            obtain ⟨sched, h1, h2⟩ :=
              ih { s with queue := rest, nRunning := s.nRunning - 1, inflight := s.inflight + {(p, x)} }
                (by
                  unfold measureP at hm ⊢
                  dsimp only
                  simp only [Multiset.card_add, Multiset.card_singleton]
                  omega) hcl
            exact ⟨.fetch :: sched, by rw [run_cons, hstep]; exact h1,
              by rw [run_cons, hstep]; exact h2⟩
    · obtain ⟨pr, hmem⟩ := Multiset.exists_mem_of_ne_zero hi
      obtain ⟨p, x⟩ := pr
      have hstep : step f s (.finish p x) =
          some { s with inflight := s.inflight.erase (p, x), nRunning := s.nRunning + 1, results := s.results ++ [(p, f x)] } := by
        dsimp [step]
        rw [if_pos hmem]
      have hcard : Multiset.card s.inflight =
          Multiset.card (s.inflight.erase (p, x)) + 1 := by
        conv_lhs => rw [← Multiset.cons_erase hmem]
        simp
      obtain ⟨sched, h1, h2⟩ :=
        ih { s with inflight := s.inflight.erase (p, x), nRunning := s.nRunning + 1, results := s.results ++ [(p, f x)] }
          (by unfold measureP at hm ⊢; dsimp only; omega) hcl
      exact ⟨.finish p x :: sched, by rw [run_cons, hstep]; exact h1,
        by rw [run_cons, hstep]; exact h2⟩

lemma lookup_of_nodup (rs : List (Nat × TOut)) (hnd : (rs.map Prod.fst).Nodup)
    (p : Nat) (v : TOut) (hm : (p, v) ∈ rs) : rs.lookup p = some v := by
  induction rs with
  | nil => cases hm
  | cons hd t ih =>
    obtain ⟨a, b⟩ := hd
    simp only [List.map_cons, List.nodup_cons] at hnd
    rcases List.mem_cons.mp hm with he | ht
    · obtain ⟨h1, h2⟩ := Prod.mk.injEq .. ▸ he
      subst h1
      subst h2
      simp [List.lookup]
    · have hne : a ≠ p := by
        intro he
        subst he
        exact hnd.1 (List.mem_map_of_mem Prod.fst ht)
      have hb : (p == a) = false := beq_false_of_ne fun he => hne he.symm
      simp only [List.lookup, hb]
      exact ih hnd.2 ht

/-- C1: for every set of submitted jobs and every worker count of at least
1, each submitted job produces exactly one result in the result stream, in
every interleaving: no position is ever emitted twice, and when a drain
execution closes the sink the emitted results are exactly one per
submitted job. -/
theorem every_job_yields_exactly_one_result (js : List Int) (n : Nat) (f : Int → TOut)
    (sched : List Action) (hn : 1 ≤ n) :
    (((run f sched (initState js n)).results.map Prod.fst)).Nodup ∧
    (Action.setCancel ∉ sched →
      (run f sched (initState js n)).resultsClosed = true →
      ((run f sched (initState js n)).results : Multiset (Nat × TOut))
        = ↑(js.enum.map fun q => (q.1, f q.2))) :=
  ⟨run_nodup js n f sched, fun hnc hcl => run_complete js n f sched hn hnc hcl⟩

/-- Witness for C1: a complete drain run with one worker and jobs `[1, 2]`. -/
theorem every_job_yields_exactly_one_result_witness :
    ((run double [Action.fetch, .finish 0 1, .fetch, .finish 1 2, .stopWorker,
        .closeResults] (initState [1, 2] 1)).results : Multiset (Nat × TOut))
      = ↑([(1 : Int), 2].enum.map fun q => (q.1, double q.2)) :=
  (every_job_yields_exactly_one_result [1, 2] 1 double
    [Action.fetch, .finish 0 1, .fetch, .finish 1 2, .stopWorker, .closeResults]
    (by decide)).2 (by decide) (by decide)

/-- C3: the result sink is closed only after every worker has terminated
(never closed while some worker is running or processing), and closing is
enabled exactly once all workers have terminated. -/
theorem sink_closed_iff_workers_terminated (f : Int → TOut) :
    (∀ (js : List Int) (n : Nat) (sched : List Action),
      (run f sched (initState js n)).resultsClosed = true →
      (run f sched (initState js n)).nRunning = 0 ∧
      (run f sched (initState js n)).inflight = 0 ∧
      (run f sched (initState js n)).nStopped = n) ∧
    (∀ s : PoolState, s.nStopped = s.total → s.resultsClosed = false →
      step f s .closeResults = some { s with resultsClosed := true }) := by
  constructor
  · intro js n sched hcl
    obtain ⟨hcount, hsink, -⟩ := base_run js f n sched
    have htot : (run f sched (initState js n)).total = n := run_total f sched (initState js n)
    have hstop := hsink hcl
    unfold CountInv at hcount
    have hr : (run f sched (initState js n)).nRunning = 0 := by omega
    have hc : Multiset.card (run f sched (initState js n)).inflight = 0 := by omega
    exact ⟨hr, Multiset.card_eq_zero.mp hc, by omega⟩
  · intro s h1 h2
    dsimp [step]
    rw [if_pos ⟨h1, h2⟩]

/-- Witness for C3: a zero-worker pool may close its sink immediately. -/
theorem sink_closed_iff_workers_terminated_witness :
    step double (initState [] 0) Action.closeResults
      = some { initState ([] : List Int) 0 with resultsClosed := true } :=
  (sink_closed_iff_workers_terminated double).2 (initState [] 0) rfl rfl

/-- C4: a worker's fetch loop can terminate exactly when the queue is
closed and empty or cancellation has been observed between jobs, and with
the queue closed (the drain scenario) every worker terminates: some
schedule brings all `n` workers to the stopped state. -/
theorem worker_loop_termination (f : Int → TOut) :
    (∀ s : PoolState, (∃ s', step f s .stopWorker = some s') ↔
      (1 ≤ s.nRunning ∧ (s.cancel = true ∨ (s.queueClosed = true ∧ s.queue = [])))) ∧
    (∀ (js : List Int) (n : Nat), ∃ sched : List Action,
      (run f sched (initState js n)).nRunning = 0 ∧
      (run f sched (initState js n)).inflight = 0 ∧
      (run f sched (initState js n)).nStopped = n) := by
  constructor
  · intro s
    constructor
    · rintro ⟨s', hs⟩
      dsimp [step] at hs
      split at hs
      · rename_i hg
        exact hg
      · exact Option.noConfusion hs
    · intro hg
      exact ⟨_, by dsimp [step]; rw [if_pos hg]⟩
  · intro js n
    obtain ⟨sched, h1, h2⟩ :=
      exists_drain f (measureP (initState js n)) (initState js n) le_rfl rfl
    refine ⟨sched, h1, h2, ?_⟩
    obtain ⟨hcount, -, -⟩ := base_run js f n sched
    have htot : (run f sched (initState js n)).total = n := run_total f sched (initState js n)
    unfold CountInv at hcount
    have hc0 : Multiset.card (run f sched (initState js n)).inflight = 0 := by
      rw [h2]
      rfl
    omega

/-- Witness for C4: with one idle worker and a closed empty queue the stop
transition is enabled. -/
theorem worker_loop_termination_witness :
    (step double (initState [] 1) Action.stopWorker).isSome = true := by
  obtain ⟨s', hs⟩ := ((worker_loop_termination double).1 (initState [] 1)).mpr
    ⟨by decide, Or.inr ⟨rfl, rfl⟩⟩
  rw [hs]
  rfl

/-- C5: pool construction validates its parameters: any call with
`workerCount < 1` or a negative capacity fails with `InvalidConfig` (no
pool value is produced), in particular `workerCount = 0`; valid parameters
construct the pool. -/
theorem new_validates_config :
    (∀ (w q r : Int) (o : Bool), (w < 1 ∨ q < 0 ∨ r < 0) →
      Pool.new w q r o = .error .invalidConfig) ∧
    (∀ (q r : Int) (o : Bool), Pool.new 0 q r o = .error .invalidConfig) ∧
    (∀ (w q r : Int) (o : Bool), 1 ≤ w → 0 ≤ q → 0 ≤ r →
      Pool.new w q r o = .ok ⟨w, q, r, o⟩) := by
  refine ⟨?_, ?_, ?_⟩
  · intro w q r o h
    unfold new
    rw [if_pos h]
  · intro q r o
    unfold new
    rw [if_pos (Or.inl (by norm_num))]
  · intro w q r o h1 h2 h3
    unfold new
    rw [if_neg (by omega)]

/-- Witness for C5 at `workerCount = 0` and at a negative capacity. -/
theorem new_validates_config_witness :
    Pool.new 0 5 5 false = .error .invalidConfig ∧
      Pool.new 3 (-1) 5 false = .error .invalidConfig ∧
      Pool.new 3 5 5 false = .ok ⟨3, 5, 5, false⟩ :=
  ⟨new_validates_config.2.1 5 5 false,
    new_validates_config.1 3 (-1) 5 false (Or.inr (Or.inl (by norm_num))),
    new_validates_config.2.2 3 5 5 false (by norm_num) (by norm_num) (by norm_num)⟩

/-- C6: submitting a job after the job queue is closed — in particular
after a drain shutdown closed it — fails with `ClosedQueue`; no state with
the job enqueued is produced. -/
theorem submit_after_close_fails :
    (∀ (s : PoolState) (j : Nat × Int), s.queueClosed = true →
      submit s j = .error .closedQueue) ∧
    (∀ (s : PoolState) (j : Nat × Int), submit (closeQueue s) j = .error .closedQueue) := by
  constructor
  · intro s j h
    unfold submit
    rw [if_pos h]
  · intro s j
    simp [submit, closeQueue]

/-- Witness for C6: submitting to the closed initial pool state fails. -/
theorem submit_after_close_fails_witness :
    submit (initState [] 1) (0, 7) = .error .closedQueue :=
  submit_after_close_fails.1 (initState [] 1) (0, 7) rfl

/-- C7: the transform is applied exactly once to each consumed job — the
finishing step appends exactly one result computed as `f x` (an `Err`
outcome is emitted to the result stream like any other, never raised) and
returns the worker to the receive loop rather than stopping it; globally
no job position ever yields two results. -/
theorem transform_once_per_job_err_continues (f : Int → TOut) :
    (∀ (s : PoolState) (p : Nat) (x : Int), (p, x) ∈ s.inflight →
      step f s (.finish p x)
        = some { s with inflight := s.inflight.erase (p, x), nRunning := s.nRunning + 1, results := s.results ++ [(p, f x)] }) ∧
    (∀ (js : List Int) (n : Nat) (sched : List Action),
      (((run f sched (initState js n)).results.map Prod.fst)).Nodup) := by
  constructor
  · intro s p x hm
    dsimp [step]
    rw [if_pos hm]
  · intro js n sched
    exact run_nodup js n f sched

/-- Witness for C7: a worker holding job `(0, 5)` under an always-failing
transform emits `Err` and returns to the receive loop. -/
theorem transform_once_per_job_err_continues_witness :
    step (fun _ => TOut.err "boom")
      (⟨1, [], true, false, 0, {(0, 5)}, 0, [], false⟩ : PoolState) (Action.finish 0 5)
      = some (⟨1, [], true, false, 1, 0, 0, [(0, TOut.err "boom")], false⟩ : PoolState) := by
  have h := (transform_once_per_job_err_continues (fun _ => TOut.err "boom")).1
    (⟨1, [], true, false, 0, {(0, 5)}, 0, [], false⟩ : PoolState) 0 5 (by decide)
  exact h.trans (by decide)

/-- C2: in the concrete scenario of the source — 3 workers, jobs
`[1,2,3,4,5]`, transform `job * 2`, drain shutdown — every completed
execution yields, in unordered (emission) order, some permutation of
`[2,4,6,8,10]`, and in Ordered mode exactly `[2,4,6,8,10]`. -/
theorem concrete_scenario_doubling (sched : List Action)
    (hnc : Action.setCancel ∉ sched)
    (hcl : (run double sched (initState [1, 2, 3, 4, 5] 3)).resultsClosed = true) :
    ((run double sched (initState [1, 2, 3, 4, 5] 3)).results.map Prod.snd).Perm
      [TOut.ok 2, TOut.ok 4, TOut.ok 6, TOut.ok 8, TOut.ok 10] ∧
    orderedOut 5 (run double sched (initState [1, 2, 3, 4, 5] 3)).results
      = [TOut.ok 2, TOut.ok 4, TOut.ok 6, TOut.ok 8, TOut.ok 10] := by
  have hmeq := run_complete [1, 2, 3, 4, 5] 3 double sched (by norm_num) hnc hcl
  have hexp : ([(1 : Int), 2, 3, 4, 5].enum.map fun q => (q.1, double q.2)) =
      [(0, TOut.ok 2), (1, TOut.ok 4), (2, TOut.ok 6), (3, TOut.ok 8), (4, TOut.ok 10)] := by
    decide
  rw [hexp] at hmeq
  have hperm : (run double sched (initState [1, 2, 3, 4, 5] 3)).results.Perm
      [(0, TOut.ok 2), (1, TOut.ok 4), (2, TOut.ok 6), (3, TOut.ok 8), (4, TOut.ok 10)] :=
    Multiset.coe_eq_coe.mp hmeq
  constructor
  · simpa using hperm.map Prod.snd
  · have hnd : ((run double sched (initState [1, 2, 3, 4, 5] 3)).results.map
        Prod.fst).Nodup := ((hperm.map Prod.fst).nodup_iff).mpr (by decide)
    have hl0 := lookup_of_nodup _ hnd 0 (TOut.ok 2) (hperm.mem_iff.mpr (by decide))
    have hl1 := lookup_of_nodup _ hnd 1 (TOut.ok 4) (hperm.mem_iff.mpr (by decide))
    have hl2 := lookup_of_nodup _ hnd 2 (TOut.ok 6) (hperm.mem_iff.mpr (by decide))
    have hl3 := lookup_of_nodup _ hnd 3 (TOut.ok 8) (hperm.mem_iff.mpr (by decide))
    have hl4 := lookup_of_nodup _ hnd 4 (TOut.ok 10) (hperm.mem_iff.mpr (by decide))
    have hr5 : List.range 5 = [0, 1, 2, 3, 4] := by decide
    unfold orderedOut
    rw [hr5]
    simp [List.filterMap_cons, hl0, hl1, hl2, hl3, hl4]

/-- Witness for C2: an explicit completing schedule for the 3-worker run. -/
theorem concrete_scenario_doubling_witness :
    orderedOut 5 (run double [Action.fetch, .finish 0 1, .fetch, .finish 1 2, .fetch,
        .finish 2 3, .fetch, .finish 3 4, .fetch, .finish 4 5, .stopWorker, .stopWorker,
        .stopWorker, .closeResults] (initState [1, 2, 3, 4, 5] 3)).results
      = [TOut.ok 2, TOut.ok 4, TOut.ok 6, TOut.ok 8, TOut.ok 10] :=
  (concrete_scenario_doubling [Action.fetch, .finish 0 1, .fetch, .finish 1 2, .fetch,
    .finish 2 3, .fetch, .finish 3 4, .fetch, .finish 4 5, .stopWorker, .stopWorker,
    .stopWorker, .closeResults] (by decide) (by decide)).2

end Pool

end ExampleFiles
